import Mathlib

/-!
Verification development for the `secure-vault-file-keeper` repository.

The core under verification is `src/lib/crypto.ts` (the repository contains two
variants of this module; where they differ, the variant with structural
validation — the one the specification describes — is embedded, and the
difference is noted at the definition).  File contents that are parsed as JSON
are modelled up to JSON parsing: a file's text is an `Option Json`, where
`none` stands for text that `JSON.parse` rejects and `some j` for text that
parses to the JSON value `j`.  The Web Crypto primitives (PBKDF2 key
derivation, AES-256-GCM) are not part of the repository; they are modelled
symbolically as an ideal deterministic KDF and an ideal AEAD whose
authentication tag binds key, nonce and plaintext perfectly, following the
contract the specification states for them.
-/

namespace Vault

/-- JSON values.  Models the values produced by `JSON.parse` and consumed by
`JSON.stringify` in `crypto.ts`.  Numbers are modelled as integers: every
number the codec reads or writes is a byte value or a length. -/
inductive Json where
  | null : Json
  | bool : Bool → Json
  | num : Int → Json
  | str : String → Json
  | arr : List Json → Json
  | obj : List (String × Json) → Json

/-- A file as the codec sees it: a name and a text content, the content
modelled up to JSON parsing (`none` = text rejected by `JSON.parse`). -/
structure MFile where
  name : String
  content : Option Json

/-- Result of `encryptFile` / shape of `EncryptionResult` in `crypto.ts`:
the produced blob (its JSON value) and the output filename. -/
structure EncryptionResult where
  blob : Json
  filename : String

/-! ### String helpers (models of the JS string operations used) -/

/-- `leadMatch p l` is true when the character list `p` begins the list `l`. -/
def leadMatch : List Char → List Char → Bool
  | [], _ => true
  | _ :: _, [] => false
  | a :: as, b :: bs => a == b && leadMatch as bs

/-- `hasRun p l` is true when `p` occurs as a contiguous run inside `l`.
Models `String.prototype.includes`. -/
def hasRun (p : List Char) : List Char → Bool
  | [] => leadMatch p []
  | c :: rest => leadMatch p (c :: rest) || hasRun p rest

/-- Model of `s.includes(pat)` on JS strings. -/
def strIncludes (s pat : String) : Bool :=
  hasRun pat.data s.data

/-- Model of `s.endsWith(pat)` on JS strings. -/
def strEndsWith (s pat : String) : Bool :=
  leadMatch pat.data.reverse s.data.reverse

/-! ### Injective numeric encodings, used by the ideal primitives -/

/-- Injective encoding of a list of naturals into a natural, via `Nat.pair`. -/
def encList (l : List Nat) : Nat :=
  l.foldr (fun a r => Nat.pair a r + 1) 0

/-- Injective encoding of a string into a natural (through its characters). -/
def encStr (s : String) : Nat :=
  encList (s.data.map Char.toNat)

/-! ### Ideal models of the Web Crypto primitives -/

/-- Modelled from the spec: `deriveKey` (src/lib/crypto.ts lines 20–46) runs
PBKDF2-SHA-256, 100000 iterations, over the UTF-8 password and the salt to a
256-bit AES-GCM key.  The PBKDF2 implementation lives in the platform, not in
the repository; per the spec's contract ("slow, salted, deterministic given
the same password+salt") it is modelled as an ideal deterministic KDF, a pure
injective function of the password and the salt. -/
def deriveKey (password : String) (salt : List Nat) : Nat :=
  Nat.pair (encStr password) (encList salt)

/-- Modelled from the spec: the 16-byte GCM authentication tag appended by
`crypto.subtle.encrypt`.  The tag is idealized as perfectly binding: its first
entry is an injective encoding of the key, the nonce and the plaintext, so a
tag check passes exactly for the triple that produced it (the spec: "The AEAD
tag check is the sole integrity/authenticity guarantee"). -/
def tag16 (key : Nat) (nonce body : List Nat) : List Nat :=
  Nat.pair key (Nat.pair (encList nonce) (encList body)) :: List.replicate 15 0

/-- Modelled from the spec: `crypto.subtle.encrypt` with AES-256-GCM —
ciphertext is the encrypted body with the 16-byte tag appended, so its length
is plaintext length + 16.  The body is carried symbolically (confidentiality
is not in scope of these claims); the tag is the ideal binding tag. -/
def aeadEncrypt (key : Nat) (nonce pt : List Nat) : List Nat :=
  pt ++ tag16 key nonce pt

/-- Modelled from the spec: `crypto.subtle.decrypt` with AES-256-GCM — splits
off the 16-byte tag, recomputes it for the presented key and nonce, and
rejects (returns `none`) unless it matches. -/
def aeadDecrypt (key : Nat) (nonce ct : List Nat) : Option (List Nat) :=
  if 16 ≤ ct.length then
    let body := ct.take (ct.length - 16)
    if ct.drop (ct.length - 16) = tag16 key nonce body then some body else none
  else none

/-! ### JSON field access (models of JS property access) -/

/-- Model of `field in obj` (as used inside a `try`, where the throw on a
non-object is caught): true when `j` is an object with the named field. -/
def hasField (j : Json) (k : String) : Bool :=
  match j with
  | .obj fs => (fs.lookup k).isSome
  | _ => false

/-- Model of `obj[k]` property access on the values the codec reads after
validation; missing fields give `Json.null` (the paths using it are reached
only after every required field was checked present). -/
def getFieldD (j : Json) (k : String) : Json :=
  match j with
  | .obj fs => (fs.lookup k).getD Json.null
  | _ => Json.null

/-- Model of reading a JS value as a string (the `filename` field is passed
through unmodified); non-strings do not occur on the verified paths. -/
def asString : Json → String
  | .str s => s
  | _ => ""

/-- Element conversion of `new Uint8Array(array)`: a JSON number becomes its
value (`Int.toNat`; the in-range byte values written by the codec pass
through unchanged, which also keeps the idealized tag entry whole),
`true` becomes 1, other element kinds become 0. -/
def elemToByte : Json → Nat
  | .num n => n.toNat
  | .bool true => 1
  | _ => 0

/-- Model of `new Uint8Array(x)` over a parsed JSON value `x`, as used in
`decryptFile` inside its reconstruction `try` block: an array maps its
elements to bytes; a non-negative number `n` gives `n` zero bytes; a negative
number throws (`RangeError`), modelled as `Except.error`; a string of length
`n` gives `n` zero bytes; other values give an empty buffer. -/
def toUint8Array : Json → Except Unit (List Nat)
  | .arr xs => .ok (xs.map elemToByte)
  | .num n => if n < 0 then .error () else .ok (List.replicate n.toNat 0)
  | .str s => .ok (List.replicate s.length 0)
  | .bool b => .ok (if b then [0] else [])
  | .null => .ok []
  | .obj _ => .ok []

/-! ### ContainerCodec -/

/-- Model of `file.name.replace(/\.[^/.]+$/, '')` in `encryptFile`
(src/lib/crypto.ts line 92), on character lists.  The regular expression
matches exactly when the name has a final `'.'` followed by one or more
characters none of which is `'.'` or `'/'`; the match (which then starts at
the last dot) is removed, otherwise the name is unchanged. -/
def stripExtChars (l : List Char) : List Char :=
  let rev := l.reverse
  let ext := rev.takeWhile (fun c => c ≠ '.')
  if ext.length < rev.length ∧ ext ≠ [] ∧ ext.all (fun c => c ≠ '/') then
    (rev.drop (ext.length + 1)).reverse
  else l

/-- String-level wrapper of `stripExtChars`. -/
def stripLastExtension (name : String) : String :=
  String.mk (stripExtChars name.data)

/-- The five required container fields, in the order `decryptFile` and
`isEncryptedFile` check them (src/unnamed/part_000 lines 126–133, 196–203). -/
def requiredFields : List String :=
  ["encryptedData", "iv", "salt", "filename", "originalSize"]

/-- Embedding of `encryptFile` (src/lib/crypto.ts lines 51–103).  The random
salt (16 bytes) and IV (12 bytes) drawn from `crypto.getRandomValues` are
explicit arguments; the plaintext is the file's bytes and `name` the file's
name; `originalSize` is `file.size`, the plaintext byte length.  The blob is
the JSON object `JSON.stringify` serializes, with its five fields in
insertion order; the output filename strips the final extension and appends
`.enc`. -/
def encryptFile (plaintext : List Nat) (name : String) (password : String)
    (salt iv : List Nat) : EncryptionResult :=
  let key := deriveKey password salt
  let encryptedData := aeadEncrypt key iv plaintext
  { blob := Json.obj
      [("encryptedData", Json.arr (encryptedData.map (fun b => Json.num (Int.ofNat b)))),
       ("iv", Json.arr (iv.map (fun b => Json.num (Int.ofNat b)))),
       ("salt", Json.arr (salt.map (fun b => Json.num (Int.ofNat b)))),
       ("filename", Json.str name),
       ("originalSize", Json.num (Int.ofNat plaintext.length))],
    filename := stripLastExtension name ++ ".enc" }

/-- Embedding of `isEncryptedFile` (src/unnamed/part_000 lines 184–207): false
unless the name ends in `.enc`; then the content is read and parsed as JSON
(a parse failure is caught and gives false, as does the `in` test throwing on
a non-object), and the five required fields are checked for presence.  (The
variant at src/lib/crypto.ts line 152 checks only the extension.) -/
def isEncryptedFile (file : MFile) : Bool :=
  if strEndsWith file.name ".enc" then
    match file.content with
    | none => false
    | some j =>
        hasField j "encryptedData" && hasField j "iv" && hasField j "salt" &&
        hasField j "filename" && hasField j "originalSize"
  else false

/-- The message `decryptFile` throws when the validity pre-check fails. -/
def invalidFileMessage : String :=
  "O arquivo não é um arquivo criptografado válido"

/-- Modelled from the spec: the platform rejection message of
`crypto.subtle.decrypt` on AEAD tag-verification failure.  The message itself
comes from the platform, not the repository; per the spec ("On
tag-verification failure: fails with AuthenticationError, surfaced to the
caller as incorrect password or corrupted file") it is modelled as a message
the catch block's `includes` test recognizes as a decrypt failure. -/
def subtleDecryptFailureMessage : String :=
  "error while executing decrypt operation"

/-- Embedding of the `catch` block of `decryptFile` (src/unnamed/part_000
lines 165–178): maps the message of a thrown error to the message surfaced to
the caller. -/
def mapDecryptError (msg : String) : String :=
  if strIncludes msg "decrypt" || strIncludes msg "importKey" then
    "Senha incorreta ou arquivo corrompido"
  else if strIncludes msg "JSON" then
    "Formato de arquivo inválido"
  else if strIncludes msg "Formato de" then
    msg
  else
    "Falha na descriptografia do arquivo: " ++ msg

/-- The first required field absent from `j`, if any: the field whose check
in `decryptFile`'s validation loop would throw. -/
def findMissingField (j : Json) : Option String :=
  requiredFields.find? (fun f => !(hasField j f))

/-- Embedding of `decryptFile` (src/unnamed/part_000 lines 105–179): checks
`isEncryptedFile` first, parses the text as JSON, checks the five required
fields, reconstructs `encryptedData` / `iv` / `salt` as byte buffers, derives
the key and authenticated-decrypts; every thrown message passes through the
catch block (`mapDecryptError`).  On success returns the plaintext bytes and
the `filename` recorded in the container.  (The variant at
src/lib/crypto.ts lines 108–147 has the same success path without the
pre-check and field validation.) -/
def decryptFile (file : MFile) (password : String) : Except String (List Nat × String) :=
  if isEncryptedFile file then
    match file.content with
    | none => .error (mapDecryptError "Formato de arquivo inválido: não é um JSON válido")
    | some j =>
      match findMissingField j with
      | some f =>
          .error (mapDecryptError
            ("Formato de arquivo inválido: campo obrigatório \x27" ++ f ++ "\x27 não encontrado"))
      | none =>
        match toUint8Array (getFieldD j "encryptedData"), toUint8Array (getFieldD j "iv"),
              toUint8Array (getFieldD j "salt") with
        | .ok ctBytes, .ok iv, .ok salt =>
          let key := deriveKey password salt
          match aeadDecrypt key iv ctBytes with
          | some pt => .ok (pt, asString (getFieldD j "filename"))
          | none => .error (mapDecryptError subtleDecryptFailureMessage)
        | _, _, _ =>
          .error (mapDecryptError "Formato de dados inválido no arquivo criptografado")
  else
    .error (mapDecryptError invalidFileMessage)

/-! ### Error taxonomy -/

/-- Modelled from the spec (§7): the spec's error taxonomy for the decrypt
path. -/
inductive ErrorKind where
  | malformedContainer : ErrorKind
  | authentication : ErrorKind
  | other : ErrorKind
deriving DecidableEq

/-- Modelled from the spec (§7): classification of the surfaced decrypt error
messages into the spec's error kinds.  `AuthenticationError` is the single
wrong-password/corruption message; `MalformedContainerError` covers
"structural parse failure, missing/malformed fields, non-.enc filename" —
i.e. the format messages and the invalid-encrypted-file rejection. -/
def errorKindOf (msg : String) : ErrorKind :=
  if msg = "Senha incorreta ou arquivo corrompido" then .authentication
  else if strIncludes msg "Formato de" || strIncludes msg invalidFileMessage then
    .malformedContainer
  else .other

/-! ### Size formatting -/

/-- Decimal rendering of a count of hundredths as JS renders
`parseFloat(v.toFixed(2))`: two decimals, trailing zeros (and a trailing
decimal point) dropped. -/
def fixed2 (h : Nat) : String :=
  let ip := h / 100
  let fr := h % 100
  if fr = 0 then Nat.repr ip
  else if fr % 10 = 0 then Nat.repr ip ++ "." ++ Nat.repr (fr / 10)
  else if fr < 10 then Nat.repr ip ++ ".0" ++ Nat.repr fr
  else Nat.repr ip ++ "." ++ Nat.repr fr

/-- Embedding of `formatFileSize` (src/lib/crypto.ts lines 189–197).
`Math.floor(Math.log(bytes)/Math.log(1024))` is the base-1024 logarithm
(`Nat.log 1024`); `(bytes / 1024^i).toFixed(2)` rounds half-up to hundredths,
computed exactly as `(200*bytes + 1024^i) / (2*1024^i)`; `sizes[i]` past the
end of the four-element unit list is `undefined`, which string concatenation
renders as "undefined". -/
def formatFileSize (bytes : Nat) : String :=
  if bytes = 0 then "0 Bytes"
  else
    let i := Nat.log 1024 bytes
    let hundredths := (200 * bytes + 1024 ^ i) / (2 * 1024 ^ i)
    fixed2 hundredths ++ " " ++ (["Bytes", "KB", "MB", "GB"].getD i "undefined")

end Vault

/-! ## Helper lemmas -/

namespace Vault

theorem strMk_data (s : String) : String.mk s.data = s := String.ext rfl

theorem encList_cons (a : Nat) (l : List Nat) :
    encList (a :: l) = Nat.pair a (encList l) + 1 := rfl

theorem encList_injective : Function.Injective encList := by
  intro l₁ l₂ h
  induction l₁ generalizing l₂ with
  | nil =>
    cases l₂ with
    | nil => rfl
    | cons b bs => simp [encList] at h
  | cons a as ih =>
    cases l₂ with
    | nil => simp [encList] at h
    | cons b bs =>
      rw [encList_cons, encList_cons] at h
      have h₂ := Nat.pair_eq_pair.mp (Nat.succ_injective h)
      rw [h₂.1, ih h₂.2]

theorem charToNat_injective : Function.Injective Char.toNat := by
  intro c d h
  apply Char.eq_of_val_eq
  apply UInt32.ext
  exact h

theorem encStr_injective : Function.Injective encStr := by
  intro s t h
  have h₁ : s.data.map Char.toNat = t.data.map Char.toNat := encList_injective h
  have h₂ : s.data = t.data := List.map_injective_iff.mpr charToNat_injective h₁
  exact String.ext h₂

theorem deriveKey_password_injective (W W' : String) (salt : List Nat) (h : W ≠ W') :
    deriveKey W salt ≠ deriveKey W' salt := by
  intro hEq
  exact h (encStr_injective (Nat.pair_eq_pair.mp hEq).1)

theorem tag16_length (k : Nat) (n b : List Nat) : (tag16 k n b).length = 16 := by
  simp [tag16]

theorem aeadEncrypt_length (k : Nat) (n p : List Nat) :
    (aeadEncrypt k n p).length = p.length + 16 := by
  simp [aeadEncrypt, tag16_length]

theorem aeadEncrypt_take (k : Nat) (n p : List Nat) :
    (aeadEncrypt k n p).take ((aeadEncrypt k n p).length - 16) = p := by
  rw [aeadEncrypt_length, Nat.add_sub_cancel]
  exact List.take_left' rfl

theorem aeadEncrypt_drop (k : Nat) (n p : List Nat) :
    (aeadEncrypt k n p).drop ((aeadEncrypt k n p).length - 16) = tag16 k n p := by
  rw [aeadEncrypt_length, Nat.add_sub_cancel]
  exact List.drop_left' rfl

theorem aead_roundtrip (k : Nat) (n p : List Nat) :
    aeadDecrypt k n (aeadEncrypt k n p) = some p := by
  unfold aeadDecrypt
  rw [if_pos (by rw [aeadEncrypt_length]; omega)]
  simp [aeadEncrypt_take, aeadEncrypt_drop]

theorem tag16_key_injective (k k' : Nat) (n b n' b' : List Nat) (h : k ≠ k') :
    tag16 k n b ≠ tag16 k' n' b' := by
  intro hEq
  have := (List.cons.injEq _ _ _ _).mp hEq
  exact h (Nat.pair_eq_pair.mp this.1).1

theorem aead_wrong_key (k k' : Nat) (n p : List Nat) (h : k ≠ k') :
    aeadDecrypt k' n (aeadEncrypt k n p) = none := by
  unfold aeadDecrypt
  rw [if_pos (by rw [aeadEncrypt_length]; omega)]
  simp only [aeadEncrypt_take, aeadEncrypt_drop]
  rw [if_neg (tag16_key_injective k k' n p n p h)]

theorem toUint8Array_byte_array (l : List Nat) :
    toUint8Array (Json.arr (l.map (fun b => Json.num (Int.ofNat b)))) = .ok l := by
  simp only [toUint8Array, List.map_map, Except.ok.injEq]
  have h : (elemToByte ∘ fun b : Nat => Json.num (Int.ofNat b)) = id :=
    funext fun b => Int.toNat_ofNat b
  rw [h, List.map_id]

theorem leadMatch_append_self (p r : List Char) : leadMatch p (p ++ r) = true := by
  induction p with
  | nil => rfl
  | cons a as ih => simp [leadMatch, ih]

theorem strEndsWith_append (s t : String) : strEndsWith (s ++ t) t = true := by
  unfold strEndsWith
  rw [String.data_append, List.reverse_append]
  exact leadMatch_append_self t.data.reverse s.data.reverse

end Vault

namespace Vault

theorem isEncryptedFile_encryptFile (P : List Nat) (name W : String) (salt iv : List Nat) :
    isEncryptedFile
      ⟨(encryptFile P name W salt iv).filename, some (encryptFile P name W salt iv).blob⟩ = true := by
  have hends : strEndsWith ((encryptFile P name W salt iv).filename) ".enc" = true :=
    strEndsWith_append (stripLastExtension name) ".enc"
  simp only [isEncryptedFile, hends, if_true]
  rfl

theorem decryptFile_encryptFile (P : List Nat) (name W₁ W₂ : String) (salt iv : List Nat) :
    decryptFile
        ⟨(encryptFile P name W₁ salt iv).filename, some (encryptFile P name W₁ salt iv).blob⟩ W₂ =
      match aeadDecrypt (deriveKey W₂ salt) iv (aeadEncrypt (deriveKey W₁ salt) iv P) with
      | some pt => .ok (pt, name)
      | none => .error "Senha incorreta ou arquivo corrompido" := by
  have hIsEnc := isEncryptedFile_encryptFile P name W₁ salt iv
  have hfm : findMissingField ((encryptFile P name W₁ salt iv).blob) = none := rfl
  have hct : toUint8Array (getFieldD ((encryptFile P name W₁ salt iv).blob) "encryptedData") =
      .ok (aeadEncrypt (deriveKey W₁ salt) iv P) :=
    toUint8Array_byte_array (aeadEncrypt (deriveKey W₁ salt) iv P)
  have hiv : toUint8Array (getFieldD ((encryptFile P name W₁ salt iv).blob) "iv") = .ok iv :=
    toUint8Array_byte_array iv
  have hsalt : toUint8Array (getFieldD ((encryptFile P name W₁ salt iv).blob) "salt") = .ok salt :=
    toUint8Array_byte_array salt
  have hmsg : mapDecryptError subtleDecryptFailureMessage =
      "Senha incorreta ou arquivo corrompido" := rfl
  simp only [decryptFile, hIsEnc, if_true, hfm, hct, hiv, hsalt, hmsg]
  rfl

end Vault

/-- C1: for every plaintext byte sequence P (including the empty sequence),
filename `name`, password W, and freshly drawn salt and IV, decrypting the
container produced by `encryptFile` with the same password succeeds and
returns exactly the plaintext P and the original filename `name`. -/
theorem Vault.c1_encrypt_decrypt_roundtrip (P : List Nat) (name W : String) (salt iv : List Nat) :
    Vault.decryptFile
        ⟨(Vault.encryptFile P name W salt iv).filename,
         some (Vault.encryptFile P name W salt iv).blob⟩ W =
      .ok (P, name) := by
  rw [Vault.decryptFile_encryptFile, Vault.aead_roundtrip]

/-- C2: for every plaintext P, filename, pair of distinct passwords W₁ ≠ W₂,
and salt/IV, decrypting the container produced with W₁ using W₂ fails with
the authentication error, surfaced as the single indistinguishable
"Senha incorreta ou arquivo corrompido" message, and returns no plaintext. -/
theorem Vault.c2_wrong_password_fails (P : List Nat) (name W₁ W₂ : String) (salt iv : List Nat)
    (h : W₁ ≠ W₂) :
    Vault.decryptFile
        ⟨(Vault.encryptFile P name W₁ salt iv).filename,
         some (Vault.encryptFile P name W₁ salt iv).blob⟩ W₂ =
      .error "Senha incorreta ou arquivo corrompido" ∧
    Vault.errorKindOf "Senha incorreta ou arquivo corrompido" = Vault.ErrorKind.authentication := by
  constructor
  · rw [Vault.decryptFile_encryptFile,
      Vault.aead_wrong_key _ _ _ _ (Vault.deriveKey_password_injective W₁ W₂ salt h)]
  · rfl

/-- Witness for C2 at concrete inputs: passwords "a" ≠ "b". -/
theorem Vault.c2_witness :
    ("a" : String) ≠ "b" ∧
    (Vault.decryptFile
        ⟨(Vault.encryptFile [7] "f.txt" "a" [] []).filename,
         some (Vault.encryptFile [7] "f.txt" "a" [] []).blob⟩ "b" =
      .error "Senha incorreta ou arquivo corrompido" ∧
     Vault.errorKindOf "Senha incorreta ou arquivo corrompido" = Vault.ErrorKind.authentication) :=
  ⟨by decide, Vault.c2_wrong_password_fails [7] "f.txt" "a" "b" [] [] (by decide)⟩

/-- C3: the validation predicate returns false when the filename does not end
in ".enc", false when the content is not parseable JSON, false when any of
the five required fields (encryptedData, iv, salt, filename, originalSize)
is missing, and returns true exactly when the filename ends in ".enc", the
content parses, and all five fields are present.  Being a total Lean
function, it never raises an error. -/
theorem Vault.c3_isEncryptedFile_iff (f : Vault.MFile) :
    Vault.isEncryptedFile f = true ↔
      (Vault.strEndsWith f.name ".enc" = true ∧
        ∃ j, f.content = some j ∧ ∀ k ∈ Vault.requiredFields, Vault.hasField j k = true) := by
  cases f with
  | mk nm ct =>
    simp only [Vault.isEncryptedFile]
    by_cases h : Vault.strEndsWith nm ".enc" = true
    · rw [if_pos h]
      cases ct with
      | none => simp [h]
      | some j =>
        simp only [h, true_and, Vault.requiredFields]
        constructor
        · intro hb
          refine ⟨j, rfl, ?_⟩
          intro k hk
          simp only [List.mem_cons, List.not_mem_nil, or_false] at hk
          simp only [Bool.and_eq_true] at hb
          rcases hk with rfl | rfl | rfl | rfl | rfl
          · exact hb.1.1.1.1
          · exact hb.1.1.1.2
          · exact hb.1.1.2
          · exact hb.1.2
          · exact hb.2
        · rintro ⟨j', hj', hall⟩
          injection hj' with hj'
          subst hj'
          simp only [Bool.and_eq_true]
          refine ⟨⟨⟨⟨?_, ?_⟩, ?_⟩, ?_⟩, ?_⟩ <;> apply hall <;> simp
    · rw [if_neg h]
      constructor
      · intro hfalse
        exact absurd hfalse (by simp)
      · intro hcon
        exact absurd hcon.1 h

namespace Vault

theorem isEncryptedFile_of_missing_salt (nm : String) (j : Json)
    (hs : hasField j "salt" = false) : isEncryptedFile ⟨nm, some j⟩ = false := by
  simp [isEncryptedFile, hs]

end Vault

/-- C4: for every input file whose content is syntactically valid JSON but is
missing the required "salt" field, decryption fails — the validity pre-check
rejects the container — with an error in the spec's MalformedContainerError
class (the surfaced message wraps the invalid-encrypted-file rejection), not
an AuthenticationError, and no plaintext is returned. -/
theorem Vault.c4_missing_salt_malformed (f : Vault.MFile) (W : String) (j : Vault.Json)
    (hc : f.content = some j) (hs : Vault.hasField j "salt" = false) :
    Vault.decryptFile f W =
      .error "Falha na descriptografia do arquivo: O arquivo não é um arquivo criptografado válido" ∧
    Vault.errorKindOf
        "Falha na descriptografia do arquivo: O arquivo não é um arquivo criptografado válido" =
      Vault.ErrorKind.malformedContainer ∧
    Vault.errorKindOf
        "Falha na descriptografia do arquivo: O arquivo não é um arquivo criptografado válido" ≠
      Vault.ErrorKind.authentication := by
  refine ⟨?_, by decide, by decide⟩
  have hnot : Vault.isEncryptedFile f = false := by
    cases f with
    | mk nm ct =>
      simp only at hc
      subst hc
      exact Vault.isEncryptedFile_of_missing_salt nm j hs
  simp only [Vault.decryptFile, hnot, Bool.false_eq_true, if_false]
  rfl

/-- Witness for C4 at a concrete input: an ".enc" file whose content parses
to an empty JSON object (so the "salt" field is absent). -/
theorem Vault.c4_witness :
    (Vault.MFile.mk "a.enc" (some (Vault.Json.obj []))).content = some (Vault.Json.obj []) ∧
    Vault.hasField (Vault.Json.obj []) "salt" = false ∧
    (Vault.decryptFile (Vault.MFile.mk "a.enc" (some (Vault.Json.obj []))) "pw" =
      .error "Falha na descriptografia do arquivo: O arquivo não é um arquivo criptografado válido" ∧
     Vault.errorKindOf
        "Falha na descriptografia do arquivo: O arquivo não é um arquivo criptografado válido" =
      Vault.ErrorKind.malformedContainer ∧
     Vault.errorKindOf
        "Falha na descriptografia do arquivo: O arquivo não é um arquivo criptografado válido" ≠
      Vault.ErrorKind.authentication) :=
  ⟨rfl, rfl, Vault.c4_missing_salt_malformed ⟨"a.enc", some (Vault.Json.obj [])⟩ "pw"
    (Vault.Json.obj []) rfl rfl⟩

namespace Vault

/-- A JSON value that is a byte written as a decimal integer. -/
def isByteNum (x : Json) : Prop :=
  ∃ b : Nat, b < 256 ∧ x = Json.num (Int.ofNat b)

end Vault

/-- C5: for every plaintext P of length n, filename, password, 16-byte salt
and 12-byte IV, the container produced by `encryptFile` is a single JSON
record whose fields are exactly encryptedData (the ciphertext-with-tag
sequence, of length n + 16), iv (a 12-element byte-integer sequence), salt
(a 16-element byte-integer sequence), filename equal to the input name
unmodified, and originalSize equal to n, in that order. -/
theorem Vault.c5_container_fields (P : List Nat) (name W : String) (salt iv : List Nat)
    (hs : salt.length = 16) (hi : iv.length = 12)
    (hsb : ∀ b ∈ salt, b < 256) (hib : ∀ b ∈ iv, b < 256) :
    ∃ ct ivl sl : List Vault.Json,
      (Vault.encryptFile P name W salt iv).blob = Vault.Json.obj
        [("encryptedData", Vault.Json.arr ct),
         ("iv", Vault.Json.arr ivl),
         ("salt", Vault.Json.arr sl),
         ("filename", Vault.Json.str name),
         ("originalSize", Vault.Json.num (Int.ofNat P.length))] ∧
      ct.length = P.length + 16 ∧
      ivl.length = 12 ∧ (∀ x ∈ ivl, Vault.isByteNum x) ∧
      sl.length = 16 ∧ (∀ x ∈ sl, Vault.isByteNum x) := by
  refine ⟨_, _, _, rfl, ?_, ?_, ?_, ?_, ?_⟩
  · rw [List.length_map, Vault.aeadEncrypt_length]
  · rw [List.length_map, hi]
  · intro x hx
    rw [List.mem_map] at hx
    obtain ⟨b, hb, rfl⟩ := hx
    exact ⟨b, hib b hb, rfl⟩
  · rw [List.length_map, hs]
  · intro x hx
    rw [List.mem_map] at hx
    obtain ⟨b, hb, rfl⟩ := hx
    exact ⟨b, hsb b hb, rfl⟩

/-- Witness for C5 at concrete inputs: a 2-byte plaintext, all-zero 16-byte
salt and 12-byte IV. -/
theorem Vault.c5_witness :
    (List.replicate 16 0 : List Nat).length = 16 ∧
    (List.replicate 12 0 : List Nat).length = 12 ∧
    (∀ b ∈ (List.replicate 16 0 : List Nat), b < 256) ∧
    (∀ b ∈ (List.replicate 12 0 : List Nat), b < 256) ∧
    (∃ ct ivl sl : List Vault.Json,
      (Vault.encryptFile [1, 2] "doc.txt" "pw" (List.replicate 16 0) (List.replicate 12 0)).blob =
        Vault.Json.obj
          [("encryptedData", Vault.Json.arr ct),
           ("iv", Vault.Json.arr ivl),
           ("salt", Vault.Json.arr sl),
           ("filename", Vault.Json.str "doc.txt"),
           ("originalSize", Vault.Json.num (Int.ofNat ([1, 2] : List Nat).length))] ∧
      ct.length = ([1, 2] : List Nat).length + 16 ∧
      ivl.length = 12 ∧ (∀ x ∈ ivl, Vault.isByteNum x) ∧
      sl.length = 16 ∧ (∀ x ∈ sl, Vault.isByteNum x)) :=
  ⟨by decide, by decide, by decide, by decide,
   Vault.c5_container_fields [1, 2] "doc.txt" "pw" (List.replicate 16 0) (List.replicate 12 0)
     (by decide) (by decide) (by decide) (by decide)⟩

/-- C7: the size-formatting helper is a pure total function on naturals;
at the spec's sample points it gives "0 Bytes", "1.5 KB" and "1 MB". -/
theorem Vault.c7_formatFileSize_samples :
    Vault.formatFileSize 0 = "0 Bytes" ∧
    Vault.formatFileSize 1536 = "1.5 KB" ∧
    Vault.formatFileSize 1048576 = "1 MB" := by
  have h1 : Nat.log 1024 1536 = 1 :=
    Nat.log_eq_of_pow_le_of_lt_pow (by norm_num) (by norm_num)
  have h2 : Nat.log 1024 1048576 = 2 :=
    Nat.log_eq_of_pow_le_of_lt_pow (by norm_num) (by norm_num)
  refine ⟨rfl, ?_, ?_⟩
  · simp only [Vault.formatFileSize, h1]
    decide
  · simp only [Vault.formatFileSize, h2]
    decide

/-- C8: key derivation is deterministic — two calls with identical password
and salt yield identical keys (the embedding is a pure function, so it has
no side effects and retains no state between calls). -/
theorem Vault.c8_deriveKey_deterministic (W W' : String) (S S' : List Nat)
    (hW : W = W') (hS : S = S') : Vault.deriveKey W S = Vault.deriveKey W' S' := by
  rw [hW, hS]

/-- Witness for C8 at concrete inputs. -/
theorem Vault.c8_witness :
    ("pw" : String) = "pw" ∧ ([3, 4] : List Nat) = [3, 4] ∧
    Vault.deriveKey "pw" [3, 4] = Vault.deriveKey "pw" [3, 4] :=
  ⟨rfl, rfl, Vault.c8_deriveKey_deterministic "pw" "pw" [3, 4] [3, 4] rfl rfl⟩

/-- C9: the encryptedData field of every container produced by `encryptFile`
is an array whose length is the plaintext length plus 16 (the appended
authentication tag), hence always at least 16, including for empty
plaintext. -/
theorem Vault.c9_ciphertext_length (P : List Nat) (name W : String) (salt iv : List Nat) :
    ∃ ct : List Vault.Json,
      Vault.getFieldD (Vault.encryptFile P name W salt iv).blob "encryptedData" =
        Vault.Json.arr ct ∧
      ct.length = P.length + 16 ∧ 16 ≤ ct.length := by
  refine ⟨_, rfl, ?_, ?_⟩
  · rw [List.length_map, Vault.aeadEncrypt_length]
  · rw [List.length_map, Vault.aeadEncrypt_length]
    omega

/-- C10: for every input at least 1024⁴ (1 TB), `formatFileSize` indexes past
the end of its four-element unit list and the unit part of the result is
"undefined". -/
theorem Vault.c10_large_input_undefined_unit (n : Nat) (h : 1024 ^ 4 ≤ n) :
    ∃ s : String, Vault.formatFileSize n = s ++ " undefined" := by
  have hpos : 0 < 1024 ^ 4 := by positivity
  have hn : n ≠ 0 := by omega
  have hlog : 4 ≤ Nat.log 1024 n := (Nat.pow_le_iff_le_log (by norm_num) hn).mp h
  have hu : (["Bytes", "KB", "MB", "GB"].getD (Nat.log 1024 n) "undefined") = "undefined" :=
    List.getD_eq_default _ _ (by simpa using hlog)
  refine ⟨Vault.fixed2 ((200 * n + 1024 ^ Nat.log 1024 n) / (2 * 1024 ^ Nat.log 1024 n)), ?_⟩
  simp only [Vault.formatFileSize, hn, if_false, hu]
  apply String.ext
  simp [String.data_append, List.append_assoc]

/-- Witness for C10 at the concrete input 1024⁴. -/
theorem Vault.c10_witness :
    1024 ^ 4 ≤ 1024 ^ 4 ∧ ∃ s : String, Vault.formatFileSize (1024 ^ 4) = s ++ " undefined" :=
  ⟨Nat.le_refl _, Vault.c10_large_input_undefined_unit (1024 ^ 4) (Nat.le_refl _)⟩

namespace Vault

theorem takeWhile_append_elem {α : Type} (p : α → Bool) (E rest : List α) (a : α)
    (hE : ∀ c ∈ E, p c = true) (ha : p a = false) :
    (E ++ a :: rest).takeWhile p = E := by
  induction E with
  | nil => simp [List.takeWhile_cons, ha]
  | cons c cs ih =>
    rw [List.cons_append, List.takeWhile_cons, if_pos (hE c (by simp))]
    rw [ih (fun x hx => hE x (by simp [hx]))]

theorem dropWhile_head_false {α : Type} (p : α → Bool) (l : List α) (a : α) (t : List α)
    (h : l.dropWhile p = a :: t) : p a = false := by
  induction l with
  | nil => simp [List.dropWhile] at h
  | cons c cs ih =>
    rw [List.dropWhile_cons] at h
    by_cases hc : p c = true
    · rw [if_pos hc] at h
      exact ih h
    · rw [if_neg hc] at h
      obtain ⟨rfl, -⟩ := List.cons.injEq c cs a t ▸ h
      exact Bool.eq_false_iff.mpr hc

theorem stripExtChars_decomp (stem extC : List Char)
    (hne : extC ≠ []) (hchars : ∀ c ∈ extC, c ≠ '.' ∧ c ≠ '/') :
    stripExtChars (stem ++ '.' :: extC) = stem := by
  have hrev : (stem ++ '.' :: extC).reverse = extC.reverse ++ '.' :: stem.reverse := by
    simp
  have htake : (extC.reverse ++ '.' :: stem.reverse).takeWhile (fun c => c ≠ '.') =
      extC.reverse := by
    apply takeWhile_append_elem
    · intro c hc
      rw [List.mem_reverse] at hc
      exact decide_eq_true (hchars c hc).1
    · simp
  simp only [stripExtChars, hrev, htake]
  rw [if_pos]
  · have hsplit : extC.reverse ++ '.' :: stem.reverse =
        (extC.reverse ++ ['.']) ++ stem.reverse := by simp
    rw [hsplit, List.drop_left' (by simp), List.reverse_reverse]
  · refine ⟨by simp, by simp [hne], ?_⟩
    rw [List.all_eq_true]
    intro c hc
    rw [List.mem_reverse] at hc
    exact decide_eq_true (hchars c hc).2

theorem stripExtChars_id (l : List Char)
    (H : ∀ stem extC : List Char, l = stem ++ '.' :: extC → extC ≠ [] →
          ∃ c ∈ extC, c = '.' ∨ c = '/') :
    stripExtChars l = l := by
  simp only [stripExtChars]
  set p : Char → Bool := fun c => c ≠ '.' with hp
  set E : List Char := l.reverse.takeWhile p with hE
  by_cases hc : E.length < l.reverse.length ∧ E ≠ [] ∧ E.all (fun c => c ≠ '/')
  · exfalso
    have hsplit : E ++ l.reverse.dropWhile p = l.reverse :=
      List.takeWhile_append_dropWhile p l.reverse
    have hlen := congrArg List.length hsplit
    rw [List.length_append] at hlen
    have hdne : l.reverse.dropWhile p ≠ [] := by
      intro hnil
      rw [hnil, List.length_nil] at hlen
      omega
    obtain ⟨d, t, hdt⟩ := List.exists_cons_of_ne_nil hdne
    have hd : p d = false := dropWhile_head_false p l.reverse d t hdt
    have hdot : d = '.' := by
      rw [hp] at hd
      simpa using hd
    rw [hdt, hdot] at hsplit
    have hl : l = t.reverse ++ '.' :: E.reverse := by
      have h2 := congrArg List.reverse hsplit
      rw [List.reverse_reverse] at h2
      rw [← h2]
      simp
    obtain ⟨c, hcm, hbad⟩ := H t.reverse E.reverse hl (by simp [hc.2.1])
    rw [List.mem_reverse] at hcm
    rcases hbad with rfl | rfl
    · rw [hE] at hcm
      have hcp := List.mem_takeWhile_imp hcm
      rw [hp] at hcp
      simp at hcp
    · have hall := hc.2.2
      rw [List.all_eq_true] at hall
      have h2 := hall _ hcm
      simp at h2
  · rw [if_neg hc]

theorem string_ne_empty_data (s : String) (h : s ≠ "") : s.data ≠ [] := by
  intro hnil
  exact h (String.ext hnil)

/-- The transformation the claim describes, in the spec's words: the output
filename is the input with its final extension — "the last '.' and
everything after it" — removed (names without a dot are unchanged). -/
def stripAtLastDotSpec (name : String) : String :=
  let rev := name.data.reverse
  let ext := rev.takeWhile (fun c => c ≠ '.')
  if ext.length < rev.length then String.mk ((rev.drop (ext.length + 1)).reverse) else name

end Vault

/-- Counterexample to C6: for the input filename "file." the code leaves the
name unchanged (the regular expression requires at least one character after
the final dot), producing "file..enc", while the claim's rule — remove the
last '.' and everything after it, then append ".enc" — gives "file.enc". -/
theorem Vault.c6_counterexample :
    (Vault.encryptFile [] "file." "pw" [] []).filename ≠
      Vault.stripAtLastDotSpec "file." ++ ".enc" ∧
    (Vault.encryptFile [] "file." "pw" [] []).filename = "file..enc" ∧
    Vault.stripAtLastDotSpec "file." ++ ".enc" = "file.enc" := by
  refine ⟨?_, ?_, ?_⟩ <;> decide

/-- C6 as amended: the output filename is the input with its final extension
removed and ".enc" appended, where a final extension is a trailing segment
consisting of a '.' followed by at least one character, none of which is '.'
or '/'; an input with no such trailing segment (no dot, a trailing dot, or a
'/' or a second '.' in the candidate segment) is left unchanged before
".enc" is appended. -/
theorem Vault.c6_amended (P : List Nat) (W : String) (salt iv : List Nat) (name : String) :
    (∀ stem ext : String, name = stem ++ "." ++ ext → ext ≠ "" →
        (∀ c ∈ ext.data, c ≠ '.' ∧ c ≠ '/') →
        (Vault.encryptFile P name W salt iv).filename = stem ++ ".enc") ∧
    ((∀ stem ext : String, name = stem ++ "." ++ ext → ext ≠ "" →
        ∃ c ∈ ext.data, c = '.' ∨ c = '/') →
      (Vault.encryptFile P name W salt iv).filename = name ++ ".enc") := by
  constructor
  · intro stem ext hdec hne hchars
    have hdata : name.data = stem.data ++ '.' :: ext.data := by
      rw [hdec]
      simp [String.data_append]
    show Vault.stripLastExtension name ++ ".enc" = stem ++ ".enc"
    unfold Vault.stripLastExtension
    rw [hdata, Vault.stripExtChars_decomp stem.data ext.data
      (Vault.string_ne_empty_data ext hne) hchars, Vault.strMk_data]
  · intro H
    show Vault.stripLastExtension name ++ ".enc" = name ++ ".enc"
    unfold Vault.stripLastExtension
    rw [Vault.stripExtChars_id name.data, Vault.strMk_data]
    intro stemC extC hdecC hneC
    have hname : name = String.mk stemC ++ "." ++ String.mk extC := by
      apply String.ext
      rw [hdecC]
      simp [String.data_append]
    have hne : String.mk extC ≠ "" := by
      intro hempty
      exact hneC (congrArg String.data hempty)
    exact H (String.mk stemC) (String.mk extC) hname hne

/-- Witness for the amended C6 at a concrete input: "report.txt" encrypts to
the output filename "report.enc". -/
theorem Vault.c6_witness :
    ("report.txt" : String) = "report" ++ "." ++ "txt" ∧
    ("txt" : String) ≠ "" ∧
    (∀ c ∈ ("txt" : String).data, c ≠ '.' ∧ c ≠ '/') ∧
    (Vault.encryptFile [] "report.txt" "pw" [] []).filename = "report" ++ ".enc" :=
  ⟨by decide, by decide, by decide,
   (Vault.c6_amended [] "pw" [] [] "report.txt").1 "report" "txt" (by decide) (by decide)
     (by decide)⟩
